import Mathlib

/-!
Verification development for the `Domain` abstraction of the dreye repository
(`dreye/core/domain.py`).

A `Domain` is a sorted, unit-attached 1-D axis of sample coordinates.  The
embedding below translates the Python source into Lean:

* Machine floats (`DEFAULT_FLOAT_DTYPE`, i.e. float64) are idealized as `ℚ`;
  all the concrete inputs exercised here are small dyadic rationals on which
  float64 arithmetic is exact.
* The unit/quantity collaborator is out of scope of the analyzed code (the
  spec treats it as external); we work in a single unit system, so the unit
  conversions `optional_to` and `.to(units)` are identities and are elided.
* Python's dynamic `interval` value (a number or a 1-D array) becomes the sum
  type `IntervalV`; fallible construction paths become `Except Err`.
* The helpers `arange`, `array_domain` and the array-level uniformity test
  live in `dreye.utilities`, outside the analyzed sources; they are modelled
  from the specification (see their doc comments).
-/

/-- Error kinds raised by the Domain code.  Each constructor corresponds to a
distinct `raise`/`assert` site in the source (or, for `ambiguousTruthValue`
and `indexError`, to an error numpy itself raises at that point). -/
inductive Err where
  /-- neither a values array nor a full (start, end, interval) triple. -/
  | missingParams
  /-- values array fails the ascending-sort check. -/
  | notSorted
  /-- single-element values array without an explicit interval
      (the `assert interval is not None` for size-1 arrays). -/
  | missingInterval
  /-- indexing `arr[0]` on an empty array (numpy IndexError). -/
  | indexError
  /-- sum of the explicit gaps exceeds the span of the domain. -/
  | overspecifiedGaps
  /-- materialized values contain duplicate coordinates. -/
  | nonUniqueValues
  /-- scalar interval larger than the (nonzero) span. -/
  | intervalTooLarge
  /-- evenly spaced generation with a non-positive number of steps
      (numpy raises for a negative linspace count). -/
  | linspaceError
  /-- `equalize_domains` on a non-uniform receiver. -/
  | selfNotUniform
  /-- `equalize_domains` with a non-uniform array operand. -/
  | otherNotUniform
  /-- operand of an unsupported type. -/
  | wrongOperandType
  /-- the two ranges do not overlap at all. -/
  | disjointRange
  /-- truth-value test of a multi-element boolean array
      (numpy ValueError raised by `if interval < self.interval`). -/
  | ambiguousTruthValue
  /-- `extend` on a non-uniform receiver (`assert self.is_uniform`). -/
  | assertNotUniform
deriving DecidableEq, Repr

/-- The `interval` attribute of a Domain: either a single uniform spacing or
an explicit per-gap sequence (a 1-D numpy array in the source). -/
inductive IntervalV where
  | scalar (q : ℚ)
  | seq (l : List ℚ)
deriving DecidableEq, Repr

/-- The Domain value object: `start`, `end` (named `end_` since `end` is a
Lean keyword), `interval` and the materialized `values`. -/
structure Domain where
  start : ℚ
  end_ : ℚ
  interval : IntervalV
  values : List ℚ
deriving DecidableEq, Repr

/-- Decidable equality for `Except` results, so that concrete runs of the
embedded operations can be checked by `decide`. -/
instance {ε α : Type} [DecidableEq ε] [DecidableEq α] :
    DecidableEq (Except ε α) := fun a b =>
  match a, b with
  | .error e1, .error e2 =>
    match decEq e1 e2 with
    | isTrue h => isTrue (by rw [h])
    | isFalse h => isFalse (by intro hc; cases hc; exact h rfl)
  | .ok v1, .ok v2 =>
    match decEq v1 v2 with
    | isTrue h => isTrue (by rw [h])
    | isFalse h => isFalse (by intro hc; cases hc; exact h rfl)
  | .error _, .ok _ => isFalse (by intro hc; cases hc)
  | .ok _, .error _ => isFalse (by intro hc; cases hc)

/-- Round half to even (the rounding used by `numpy.around` and Python's
`round`), producing an integer. -/
def roundHalfEven (q : ℚ) : ℤ :=
  let f := ⌊q⌋
  let frac := q - f
  if frac < 1/2 then f
  else if 1/2 < frac then f + 1
  else if 2 ∣ f then f else f + 1

/-- Modelled from the spec: `dreye.utilities.arange` (not among the analyzed
sources).  Per §4.1 it generates an evenly spaced sequence from `start` to
`end_` (endpoint included) stepping by `step`, and returns the **achieved**
interval, which may differ from the requested one when `step` does not evenly
divide the span — i.e. a linspace with `round((end-start)/step)` gaps
returning the actual step.  A non-positive gap count has no meaningful evenly
spaced sequence and is modelled as an error. -/
def arange (start end_ step : ℚ) : Except Err (List ℚ × ℚ) :=
  let ngaps := roundHalfEven ((end_ - start) / step)
  if ngaps ≤ 0 then .error .linspaceError
  else
    let achieved := (end_ - start) / (ngaps : ℚ)
    .ok ((List.range (ngaps.toNat + 1)).map (fun i : ℕ => start + (i : ℚ) * achieved),
         achieved)

/-- Consecutive differences of a list (`numpy.diff`). -/
def consecDiffs (v : List ℚ) : List ℚ :=
  List.zipWith (fun a b => b - a) v v.tail

/-- Modelled from the spec: the array-level uniformity test of
`dreye.utilities` (not among the analyzed sources): whether the consecutive
spacing of the array is a single unique value (`ℚ` is exact, so the
floating-point tolerance is exact equality here).  An array with no gaps
(fewer than two elements) has no unique spacing. -/
def isUniformArr (v : List ℚ) : Bool :=
  match consecDiffs v with
  | [] => false
  | d :: ds => ds.all (fun g => g == d)

/-- Modelled from the spec: `dreye.utilities.array_domain` (§4.2, not among
the analyzed sources): given a sorted array and a uniformity flag, return
`(start, end, interval)`; if uniform the interval is the single scalar gap,
otherwise the full array of consecutive differences. -/
def array_domain (v : List ℚ) (uniform : Bool) : ℚ × ℚ × IntervalV :=
  (v.headD 0, v.getLastD 0,
   if uniform then .scalar ((consecDiffs v).headD 0) else .seq (consecDiffs v))

/-- Running cumulative sums of `l` starting from `s`
(`s + numpy.cumsum(l)`, element by element). -/
def cumsumFrom (s : ℚ) : List ℚ → List ℚ
  | [] => []
  | g :: gs => (s + g) :: cumsumFrom (s + g) gs

/-- The ascending-sort check of the constructor:
`np.all(np.sort(values) == values)`. -/
def sortedCheck (v : List ℚ) : Bool :=
  List.insertionSort (· ≤ ·) v == v

/-- Translation of `Domain._create_values(start, end, interval)`: materialize
the value sequence from the triple, returning the values together with the
(possibly adjusted) interval. -/
def create_values (start end_ : ℚ) (iv : IntervalV) :
    Except Err (List ℚ × IntervalV) :=
  match iv with
  | .seq l =>
    let d := (end_ - start) - l.sum
    if 0 < d then
      let l' := l ++ [d]
      let values := start :: cumsumFrom start l'
      if values.Nodup then .ok (values, .seq l') else .error .nonUniqueValues
    else if d < 0 then .error .overspecifiedGaps
    else
      let values := start :: cumsumFrom start l
      if values.Nodup then .ok (values, .seq l) else .error .nonUniqueValues
  | .scalar q =>
    if end_ == start then .ok ([start], .scalar q)
    else if q > end_ - start then .error .intervalTooLarge
    else
      match arange start end_ q with
      | .error e => .error e
      | .ok (values, achieved) => .ok (values, .scalar achieved)

/-- Translation of `Domain._test_and_assign_values`: the two construction
paths (explicit triple, or a supplied values array with an optional interval
keyword). -/
def test_and_assign_values (values : Option (List ℚ))
    (start end_ : Option ℚ) (interval : Option IntervalV) :
    Except Err Domain :=
  match values with
  | none =>
    match start, end_, interval with
    | some s, some e, some iv =>
      match create_values s e iv with
      | .error err => .error err
      | .ok (v, iv') => .ok ⟨s, e, iv', v⟩
    | _, _, _ => .error .missingParams
  | some v =>
    if ¬ sortedCheck v then .error .notSorted
    else if v.length == 1 then
      match interval with
      | none => .error .missingInterval
      | some iv =>
        let s := v.headD 0
        match create_values s s iv with
        | .error err => .error err
        | .ok (v', iv') => .ok ⟨s, s, iv', v'⟩
    else if v.length == 0 then .error .indexError
    else
      let uniform := isUniformArr v
      match array_domain v uniform with
      | (s, e, iv) =>
        match create_values s e iv with
        | .error err => .error err
        | .ok (v', iv') => .ok ⟨s, e, iv', v'⟩

/-- Construction from an explicit `(start, end, interval)` triple. -/
def mkDomain (s e : ℚ) (iv : IntervalV) : Except Err Domain :=
  test_and_assign_values none (some s) (some e) (some iv)

/-- Construction from a values array (with the optional `interval` keyword,
needed for single-element arrays). -/
def domainFromValues (v : List ℚ) (iv : Option IntervalV) : Except Err Domain :=
  test_and_assign_values (some v) none none iv

/-- `Domain.is_uniform`: true iff the interval is a scalar
(`is_numeric(self.interval)`; a one-element interval array is an array, hence
not numeric). -/
def Domain.is_uniform (d : Domain) : Bool :=
  match d.interval with
  | .scalar _ => true
  | .seq _ => false

/-- Operand of `equalize_domains`/`append`: a Domain, a 1-D array-like, or a
single number (the source's runtime type dispatch as a sum type). -/
inductive Operand where
  | dom (d : Domain)
  | arr (l : List ℚ)
  | num (q : ℚ)
deriving DecidableEq, Repr

/-- Translation of `Domain.equalize_domains(other)`.  The receiver must be
uniform; a deep-equal operand short-circuits to a copy; a Domain operand is
read as its `(start, end, interval)` triple (unit conversion is the
identity here), an array operand must be uniform; then the disjointness
check, range clamping, the coarsest-interval choice
(`if interval < self.interval`, which on a multi-element interval array is an
ambiguous array truth value and raises), and reconstruction via the triple
path.  The non-fatal "equalized domain is not uniform" warning is not an
error and is not modelled. -/
def equalize_domains (self : Domain) (other : Operand) : Except Err Domain :=
  match self.interval with
  | .seq _ => .error .selfNotUniform
  | .scalar q1 =>
    if (match other with | .dom d => self == d | _ => false) then .ok self
    else
      let coerced : Except Err (ℚ × ℚ × IntervalV) :=
        match other with
        | .dom d => .ok (d.start, d.end_, d.interval)
        | .arr l =>
          if ¬ isUniformArr l then .error .otherNotUniform
          else .ok (array_domain l true)
        | .num _ => .error .wrongOperandType
      match coerced with
      | .error e => .error e
      | .ok (st, en, iv) =>
        if st > self.end_ ∨ en < self.start then .error .disjointRange
        else
          let st' := if st < self.start then self.start else st
          let en' := if en > self.end_ then self.end_ else en
          let coarsened : Except Err IntervalV :=
            match iv with
            | .scalar q2 => .ok (if q2 < q1 then .scalar q1 else .scalar q2)
            | .seq l =>
              match l with
              | [g] => .ok (if g < q1 then .scalar q1 else .seq [g])
              | _ => .error .ambiguousTruthValue
          match coarsened with
          | .error e => .error e
          | .ok iv' => mkDomain st' en' iv'

/-- Translation of `Domain.append(domain, left=False)`: coerce the operand to
raw values, concatenate, and reconstruct a fresh Domain from the concatenated
array via the values path. -/
def Domain.append (self : Domain) (other : Operand) (left : Bool) :
    Except Err Domain :=
  let vals : List ℚ :=
    match other with
    | .dom d => d.values
    | .arr l => l
    | .num q => [q]
  let values := if left then vals ++ self.values else self.values ++ vals
  domainFromValues values none

/-- Translation of `Domain.extend(length, left=False)`: requires a uniform
receiver (`length` being an integer is enforced by its type here), generates
`length` new evenly spaced points past `end` (or before `start` when `left`),
and delegates to `append`. -/
def Domain.extend (self : Domain) (length : ℕ) (left : Bool) :
    Except Err Domain :=
  match self.interval with
  | .seq _ => .error .assertNotUniform
  | .scalar q =>
    let add : List ℚ :=
      if left then
        (List.range length).map (fun idx : ℕ => self.start - ((length : ℚ) - (idx : ℚ)) * q)
      else
        (List.range length).map (fun idx : ℕ => self.end_ + q * ((idx : ℚ) + 1))
    self.append (.arr add) left

/-- Interior and right-edge part of `numpy.gradient`: central differences
between the previous point `p` and the next one, one-sided at the end. -/
def gradientAux (p c : ℚ) : List ℚ → List ℚ
  | [] => [c - p]
  | n :: rest => (n - p) / 2 :: gradientAux c n rest

/-- Numerical gradient over a 1-D list (`numpy.gradient`): one-sided
differences at the edges, central differences in the interior. -/
def np_gradient (v : List ℚ) : List ℚ :=
  match v with
  | [] => []
  | [_] => []
  | a :: b :: rest => (b - a) :: gradientAux a b rest

/-- Arithmetic mean of a list (`numpy.mean`). -/
def mean (l : List ℚ) : ℚ := l.sum / (l.length : ℚ)

/-- Result of `enforce_uniformity`: either the receiver itself was returned
(`return self`) or a rebuilt new Domain was returned. -/
inductive EnforceResult where
  | returnedSelf
  | returnedNew (d : Domain)
deriving DecidableEq, Repr

/-- Translation of `Domain.enforce_uniformity(method=np.mean,
on_gradient=True)` with the default `method`: if already uniform, return
`self` itself; otherwise average the gradient (or the raw interval array) to
a single scalar and rebuild the values from `(start, end, scalar)`, keeping
`start`/`end` fixed on a copy. -/
def enforce_uniformity (self : Domain) (on_gradient : Bool) :
    Except Err EnforceResult :=
  if self.is_uniform then .ok .returnedSelf
  else
    let value :=
      if on_gradient then mean (np_gradient self.values)
      else
        match self.interval with
        | .seq l => mean l
        | .scalar q => q
    match create_values self.start self.end_ (.scalar value) with
    | .error e => .error e
    | .ok (v, iv) => .ok (.returnedNew ⟨self.start, self.end_, iv, v⟩)

/-- State-passing form of `equalize_domains`: the receiver's state is
threaded explicitly.  The method body assigns only to locals and to the newly
constructed instance, never to the receiver's fields, so the out-state is the
in-state. -/
def equalize_domains_st (receiver : Domain) (other : Operand) :
    Domain × Except Err Domain :=
  (receiver, equalize_domains receiver other)

/-- State-passing form of `Domain.append`; the body never assigns to the
receiver's fields. -/
def append_st (receiver : Domain) (other : Operand) (left : Bool) :
    Domain × Except Err Domain :=
  (receiver, receiver.append other left)

/-- State-passing form of `Domain.extend`; the body never assigns to the
receiver's fields. -/
def extend_st (receiver : Domain) (length : ℕ) (left : Bool) :
    Domain × Except Err Domain :=
  (receiver, receiver.extend length left)

/-- State-passing form of `enforce_uniformity`; the body mutates only the
copy (`new = self.copy()`), never the receiver. -/
def enforce_uniformity_st (receiver : Domain) (on_gradient : Bool) :
    Domain × Except Err EnforceResult :=
  (receiver, enforce_uniformity receiver on_gradient)

/-- Arithmetic progression of `m` points starting at `a` with step `q`
(helper for stating and proving facts about evenly spaced value lists). -/
def progList (a q : ℚ) (m : ℕ) : List ℚ :=
  (List.range m).map (fun i : ℕ => a + (i : ℚ) * q)

/-- Concrete uniform domain `[0..10]` step 1, as built by the constructor. -/
def domA : Domain := ⟨0, 10, .scalar 1, [0,1,2,3,4,5,6,7,8,9,10]⟩

/-- Concrete domain produced by `Domain(5, 20, 2)`: the achieved interval is
`15/8`, not 2, since 2 does not evenly divide the span 15. -/
def domB : Domain := ⟨5, 20, .scalar (15/8), [5, 55/8, 35/4, 85/8, 25/2, 115/8, 65/4, 145/8, 20]⟩

/-- Concrete uniform domain `[0..5]` step 1. -/
def domC : Domain := ⟨0, 5, .scalar 1, [0,1,2,3,4,5]⟩

/-- Concrete uniform domain `[5..8]` step 1, touching `domC` at 5. -/
def domTouch : Domain := ⟨5, 8, .scalar 1, [5,6,7,8]⟩

/-- Concrete non-uniform domain with values `[0, 1, 3]` (gaps `[1, 2]`), as
built by `Domain(values=[0,1,3])`. -/
def domNU : Domain := ⟨0, 3, .seq [1,2], [0,1,3]⟩

lemma roundHalfEven_intCast (n : ℤ) : roundHalfEven (n : ℚ) = n := by
  unfold roundHalfEven
  norm_num

lemma roundHalfEven_ge_one {x : ℚ} (hx : 1 ≤ x) : 1 ≤ roundHalfEven x := by
  have h : 1 ≤ ⌊x⌋ := Int.le_floor.mpr (by exact_mod_cast hx)
  unfold roundHalfEven
  dsimp only
  split_ifs <;> omega

lemma consecDiffs_cons (a b : ℚ) (t : List ℚ) :
    consecDiffs (a :: b :: t) = (b - a) :: consecDiffs (b :: t) := rfl

lemma consecDiffs_singleton (a : ℚ) : consecDiffs [a] = [] := rfl

lemma cumsumFrom_consecDiffs : ∀ (t : List ℚ) (a : ℚ),
    cumsumFrom a (consecDiffs (a :: t)) = t
  | [], _ => rfl
  | b :: t, a => by
    rw [consecDiffs_cons]
    show (a + (b - a)) :: cumsumFrom (a + (b - a)) (consecDiffs (b :: t)) = b :: t
    have hb : a + (b - a) = b := by ring
    rw [hb, cumsumFrom_consecDiffs t b]

lemma getLastD_irrel : ∀ (t : List ℚ) (b d1 d2 : ℚ),
    (b :: t).getLastD d1 = (b :: t).getLastD d2
  | [], _, _, _ => rfl
  | c :: t, b, d1, d2 => by
    rw [List.getLastD_cons d1 b, List.getLastD_cons d2 b]

lemma consecDiffs_sum : ∀ (t : List ℚ) (a : ℚ),
    (consecDiffs (a :: t)).sum = (a :: t).getLastD 0 - a
  | [], a => by simp [consecDiffs_singleton]
  | b :: t, a => by
    rw [consecDiffs_cons, List.sum_cons, consecDiffs_sum t b,
      List.getLastD_cons 0 a, getLastD_irrel t b a 0]
    ring

lemma cumsumFrom_length : ∀ (l : List ℚ) (s : ℚ),
    (cumsumFrom s l).length = l.length
  | [], _ => rfl
  | g :: gs, s => by
    show (cumsumFrom (s + g) gs).length + 1 = gs.length + 1
    rw [cumsumFrom_length gs (s + g)]

lemma cumsumFrom_chain_lt : ∀ (l : List ℚ) (s : ℚ), (∀ g ∈ l, 0 < g) →
    List.Chain' (· < ·) (s :: cumsumFrom s l)
  | [], _, _ => List.chain'_singleton _
  | g :: gs, s, h => by
    show List.Chain' (· < ·) (s :: (s + g) :: cumsumFrom (s + g) gs)
    refine List.Chain'.cons ?_ ?_
    · have := h g (by simp)
      linarith
    · exact cumsumFrom_chain_lt gs (s + g) (fun x hx => h x (by simp [hx]))

lemma progList_succ (a q : ℚ) (m : ℕ) :
    progList a q (m + 1) = a :: progList (a + q) q m := by
  unfold progList
  rw [List.range_succ_eq_map, List.map_cons, List.map_map]
  refine congrArg₂ _ (by norm_num) (List.map_congr_left ?_)
  intro i _
  simp only [Function.comp_apply]
  push_cast
  ring

lemma progList_length (a q : ℚ) (m : ℕ) : (progList a q m).length = m := by
  unfold progList
  rw [List.length_map, List.length_range]

lemma progList_headD : ∀ (m : ℕ) (a q : ℚ), 1 ≤ m → (progList a q m).headD 0 = a := by
  intro m a q hm
  match m, hm with
  | m + 1, _ => rw [progList_succ]; rfl

lemma progList_getLastD : ∀ (m : ℕ) (a q : ℚ), 1 ≤ m →
    (progList a q m).getLastD 0 = a + ((m : ℚ) - 1) * q := by
  intro m
  induction m with
  | zero => omega
  | succ k ih =>
    intro a q _
    rw [progList_succ]
    match hk : k, Nat.eq_or_lt_of_le (Nat.zero_le k) with
    | 0, _ =>
      show (progList (a + q) q 0).getLastD a = _
      unfold progList
      norm_num
    | k' + 1, _ =>
      have h1 : 1 ≤ k' + 1 := by omega
      have := ih (a + q) q h1
      rcases hcons : progList (a + q) q (k' + 1) with _ | ⟨b, t⟩
      · have := progList_length (a + q) q (k' + 1)
        rw [hcons] at this
        simp at this
      · rw [hcons] at this
        show ((a :: b :: t).getLastD 0) = _
        rw [List.getLastD_cons 0 a, getLastD_irrel t b a 0, this]
        push_cast
        ring

lemma consecDiffs_progList : ∀ (m : ℕ) (a q : ℚ),
    consecDiffs (progList a q (m + 1)) = List.replicate m q := by
  intro m
  induction m with
  | zero => intro a q; rw [progList_succ]; rfl
  | succ k ih =>
    intro a q
    rw [progList_succ, progList_succ]
    rw [consecDiffs_cons]
    have hq : a + q - a = q := by ring
    rw [hq, ← progList_succ, ih (a + q) q]
    rfl

lemma sortedCheck_iff_chain' (v : List ℚ) :
    sortedCheck v = true ↔ List.Chain' (· ≤ ·) v := by
  unfold sortedCheck
  rw [beq_iff_eq, List.chain'_iff_pairwise]
  constructor
  · intro h
    have hs := List.sorted_insertionSort (· ≤ ·) v
    rw [h] at hs
    exact hs
  · intro h
    exact List.Sorted.insertionSort_eq h

lemma chain'_le_progList (a q : ℚ) (m : ℕ) (hq : 0 ≤ q) :
    List.Chain' (· ≤ ·) (progList a q m) := by
  induction m generalizing a with
  | zero => exact List.chain'_nil
  | succ k ih =>
    rw [progList_succ]
    cases k with
    | zero => exact List.chain'_singleton a
    | succ k' =>
      rw [progList_succ]
      refine List.Chain'.cons (by linarith) ?_
      rw [← progList_succ]
      exact ih (a + q)

lemma arange_error_cases (s e q : ℚ) (err : Err)
    (h : arange s e q = .error err) : err = .linspaceError := by
  unfold arange at h
  dsimp only at h
  split_ifs at h
  simp_all

lemma create_values_error_cases (s e : ℚ) (iv : IntervalV) (err : Err)
    (h : create_values s e iv = .error err) :
    err = .overspecifiedGaps ∨ err = .nonUniqueValues ∨
    err = .intervalTooLarge ∨ err = .linspaceError := by
  unfold create_values at h
  match iv with
  | .seq l =>
    dsimp only at h
    split_ifs at h <;> simp_all
  | .scalar q =>
    dsimp only at h
    split_ifs at h
    · simp_all
    · rcases ha : arange s e q with e' | ⟨vals, ach⟩
      · rw [ha] at h
        simp only [Except.error.injEq] at h
        have h2 := arange_error_cases s e q e' ha
        rw [← h]
        tauto
      · rw [ha] at h
        simp at h

lemma zero_mem_consecDiffs_of_dup : ∀ (v : List ℚ),
    List.Chain' (· ≤ ·) v → ¬ v.Nodup → (0 : ℚ) ∈ consecDiffs v
  | [] => fun _ h => absurd List.nodup_nil h
  | [a] => fun _ h => absurd (List.nodup_singleton a) h
  | a :: b :: t => fun hc hnd => by
    rw [consecDiffs_cons]
    have hp := List.chain'_iff_pairwise.mp hc
    rcases Decidable.not_and_iff_or_not.mp (List.nodup_cons.not.mp hnd) with hmem | hnd'
    · push_neg at hmem
      have hab : a ≤ b := (List.pairwise_cons.mp hp).1 b (by simp)
      rcases List.mem_cons.mp hmem with heq | hmem'
      · rw [heq]
        simp
      · have hba : b ≤ a :=
          (List.pairwise_cons.mp (List.pairwise_cons.mp hp).2).1 a hmem'
        have : b - a = 0 := by linarith
        rw [this]
        simp
    · exact List.mem_cons_of_mem _
        (zero_mem_consecDiffs_of_dup (b :: t) hc.tail hnd')

lemma isUniformArr_progList (a q : ℚ) (k : ℕ) :
    isUniformArr (progList a q (k + 2)) = true := by
  unfold isUniformArr
  rw [consecDiffs_progList (k + 1) a q, List.replicate_succ]
  simp only [List.all_eq_true, beq_iff_eq]
  intro g hg
  exact List.eq_of_mem_replicate hg

lemma create_values_progression (a q : ℚ) (m : ℕ) (hq : 0 < q) (hm : 2 ≤ m) :
    create_values a (a + ((m : ℚ) - 1) * q) (.scalar q) =
      .ok (progList a q m, .scalar q) := by
  have hm2 : (2 : ℚ) ≤ (m : ℚ) := by exact_mod_cast hm
  have hne : ¬ (a + ((m : ℚ) - 1) * q = a) := by nlinarith
  have hspan : a + ((m : ℚ) - 1) * q - a = ((m : ℚ) - 1) * q := by ring
  unfold create_values
  dsimp only
  rw [if_neg (by simpa using hne)]
  rw [if_neg (by rw [hspan]; nlinarith)]
  have hratio : (a + ((m : ℚ) - 1) * q - a) / q = ((m : ℚ) - 1) := by
    rw [hspan]
    field_simp
  have hcast : ((m : ℚ) - 1) = (((m - 1 : ℕ) : ℤ) : ℚ) := by
    have h1 : 1 ≤ m := by omega
    push_cast [h1]
    ring
  have hng : roundHalfEven ((a + ((m : ℚ) - 1) * q - a) / q) = ((m - 1 : ℕ) : ℤ) := by
    rw [hratio, hcast, roundHalfEven_intCast]
  unfold arange
  dsimp only
  rw [hng]
  rw [if_neg (by omega)]
  have htn : ((m - 1 : ℕ) : ℤ).toNat + 1 = m := by omega
  have hach : (a + ((m : ℚ) - 1) * q - a) / (((m - 1 : ℕ) : ℤ) : ℚ) = q := by
    rw [hspan, ← hcast]
    have : ((m : ℚ) - 1) ≠ 0 := by linarith
    field_simp
  rw [htn, hach]
  rfl

lemma fromValues_progression (a q : ℚ) (m : ℕ) (hq : 0 < q) (hm : 2 ≤ m) :
    domainFromValues (progList a q m) none =
      .ok ⟨a, a + ((m : ℚ) - 1) * q, .scalar q, progList a q m⟩ := by
  obtain ⟨k, rfl⟩ : ∃ k, m = k + 2 := ⟨m - 2, by omega⟩
  have hsort : sortedCheck (progList a q (k + 2)) = true :=
    (sortedCheck_iff_chain' _).mpr (chain'_le_progList a q (k + 2) (le_of_lt hq))
  have hlen : (progList a q (k + 2)).length = k + 2 := progList_length a q (k + 2)
  have hhead : (progList a q (k + 2)).headD 0 = a := progList_headD (k + 2) a q (by omega)
  have hlast : (progList a q (k + 2)).getLastD 0 = a + (((k + 2 : ℕ) : ℚ) - 1) * q :=
    progList_getLastD (k + 2) a q (by omega)
  have hdiffs : consecDiffs (progList a q (k + 2)) = List.replicate (k + 1) q :=
    consecDiffs_progList (k + 1) a q
  have huni : isUniformArr (progList a q (k + 2)) = true := isUniformArr_progList a q k
  unfold domainFromValues test_and_assign_values
  dsimp only
  rw [hsort]
  rw [if_neg (by simp)]
  rw [hlen]
  rw [if_neg (by simp only [beq_iff_eq]; omega)]
  rw [if_neg (by simp only [beq_iff_eq]; omega)]
  unfold array_domain
  rw [huni]
  rw [if_pos rfl]
  dsimp only
  rw [hhead, hlast, hdiffs, List.replicate_succ, List.headD_cons]
  rw [create_values_progression a q (k + 2) hq (by omega)]

lemma progList_add (a q : ℚ) (n len : ℕ) :
    progList a q (n + len) =
      progList a q n ++
        (List.range len).map (fun k : ℕ => a + ((n : ℚ) + (k : ℚ)) * q) := by
  unfold progList
  rw [List.range_add, List.map_append, List.map_map]
  congr 1
  refine List.map_congr_left ?_
  intro i _
  simp only [Function.comp_apply]
  push_cast
  ring

/-- C8: `extend(length, left)` fails unless the receiver is uniform (that
`length` is an integer is enforced by its type `ℕ` in this embedding);
otherwise it returns a new Domain whose values are the receiver's values with
`length` new points spaced by the receiver's interval appended past `end`, or
prepended before `start` when `left` is set. -/
theorem claim8_extend (d : Domain) (len : ℕ) :
    (∀ (l : List ℚ) (left : Bool), d.interval = .seq l →
      d.extend len left = .error .assertNotUniform) ∧
    (∀ (q : ℚ) (n : ℕ), d.interval = .scalar q → 0 < q → 1 ≤ n → 2 ≤ n + len →
      d.values = progList d.start q n →
      d.end_ = d.start + ((n : ℚ) - 1) * q →
      (d.extend len false = .ok ⟨d.start, d.end_ + (len : ℚ) * q, .scalar q,
          d.values ++ (List.range len).map (fun k : ℕ => d.end_ + q * ((k : ℚ) + 1))⟩ ∧
       d.extend len true = .ok ⟨d.start - (len : ℚ) * q, d.end_, .scalar q,
          ((List.range len).map (fun k : ℕ => d.start - ((len : ℚ) - (k : ℚ)) * q)) ++
            d.values⟩)) := by
  constructor
  · intro l left hseq
    unfold Domain.extend
    rw [hseq]
  · intro q n hiv hq hn hnl hvals hend
    constructor
    · unfold Domain.extend
      rw [hiv]
      dsimp only
      unfold Domain.append
      simp only [Bool.false_eq_true, if_false]
      have hmapeq : (List.range len).map (fun idx : ℕ => d.end_ + q * ((idx : ℚ) + 1)) =
          (List.range len).map (fun k : ℕ => d.start + ((n : ℚ) + (k : ℚ)) * q) := by
        refine List.map_congr_left ?_
        intro i _
        rw [hend]
        ring
      have hconcat : d.values ++
          (List.range len).map (fun idx : ℕ => d.end_ + q * ((idx : ℚ) + 1)) =
          progList d.start q (n + len) := by
        rw [hvals, progList_add, hmapeq]
      rw [hconcat]
      rw [fromValues_progression d.start q (n + len) hq (by omega)]
      simp only [Except.ok.injEq, Domain.mk.injEq]
      refine ⟨trivial, ?_, trivial, trivial⟩
      rw [hend]
      push_cast
      ring
    · unfold Domain.extend
      rw [hiv]
      dsimp only
      unfold Domain.append
      simp only [if_true]
      have hmapeq : (List.range len).map
          (fun idx : ℕ => d.start - ((len : ℚ) - (idx : ℚ)) * q) =
          progList (d.start - (len : ℚ) * q) q len := by
        unfold progList
        refine List.map_congr_left ?_
        intro i _
        ring
      have hvals2 : d.values = (List.range n).map
          (fun k : ℕ => (d.start - (len : ℚ) * q) + ((len : ℚ) + (k : ℚ)) * q) := by
        rw [hvals]
        unfold progList
        refine List.map_congr_left ?_
        intro i _
        ring
      have hconcat : (List.range len).map
          (fun idx : ℕ => d.start - ((len : ℚ) - (idx : ℚ)) * q) ++ d.values =
          progList (d.start - (len : ℚ) * q) q (len + n) := by
        rw [progList_add, hmapeq, hvals2]
      rw [hconcat]
      rw [fromValues_progression (d.start - (len : ℚ) * q) q (len + n) hq (by omega)]
      simp only [Except.ok.injEq, Domain.mk.injEq]
      refine ⟨trivial, ?_, trivial, trivial⟩
      rw [hend]
      push_cast
      ring

/-- C8 witness: `Domain(0,10,1).extend(3)` appends `[11,12,13]` and
`.extend(3, left=True)` prepends `[-3,-2,-1]`; a non-uniform receiver fails. -/
theorem claim8_witness :
    (domA.extend 3 false = .ok ⟨0, 13, .scalar 1, [0,1,2,3,4,5,6,7,8,9,10,11,12,13]⟩ ∧
     domA.extend 3 true = .ok ⟨-3, 10, .scalar 1, [-3,-2,-1,0,1,2,3,4,5,6,7,8,9,10]⟩) ∧
    domNU.extend 3 false = .error .assertNotUniform := by
  refine ⟨?_, (claim8_extend domNU 3).1 [1,2] false rfl⟩
  have h := (claim8_extend domA 3).2 1 11 rfl (by norm_num) (by norm_num) (by norm_num)
    (by norm_num [domA, progList, List.range_succ])
    (by norm_num [domA])
  refine ⟨?_, ?_⟩
  · rw [h.1]
    norm_num [domA, Domain.mk.injEq, List.range_succ]
  · rw [h.2]
    norm_num [domA, Domain.mk.injEq, List.range_succ]

/-- C9: every transformation (`equalize_domains`, `append`, `extend`,
`enforce_uniformity`) leaves the receiver's `start`, `end`, `interval` and
`values` unchanged, whether it succeeds or raises: in the state-passing
embedding of each method the receiver's out-state equals its in-state (the
source bodies assign only to locals and to newly constructed instances). -/
theorem claim9_no_mutation (d : Domain) (other : Operand) (n : ℕ)
    (left og : Bool) :
    (equalize_domains_st d other).1 = d ∧ (append_st d other left).1 = d ∧
    (extend_st d n left).1 = d ∧ (enforce_uniformity_st d og).1 = d :=
  ⟨rfl, rfl, rfl, rfl⟩

/-- C7: `enforce_uniformity` on an already-uniform Domain returns the
receiver itself (`return self`), not a copy and not a rebuilt Domain. -/
theorem claim7_enforce_uniformity_identity (d : Domain) (og : Bool)
    (h : d.is_uniform = true) :
    enforce_uniformity d og = .ok .returnedSelf := by
  unfold enforce_uniformity
  rw [h]
  rfl

/-- C7 witness: the uniform domain `[0..10]` step 1 is returned as itself. -/
theorem claim7_witness :
    domA.is_uniform = true ∧ enforce_uniformity domA true = .ok .returnedSelf :=
  ⟨rfl, claim7_enforce_uniformity_identity domA true rfl⟩

/-- C6: `Domain(values=[5.0])` without an interval fails with the
missing-interval assertion; `Domain(values=[5.0], interval=1.0)` succeeds
with `start == end == 5.0` and the supplied interval preserved. -/
theorem claim6_single_point :
    domainFromValues [5] none = .error .missingInterval ∧
    domainFromValues [5] (some (.scalar 1)) = .ok ⟨5, 5, .scalar 1, [5]⟩ := by
  constructor
  · norm_num [domainFromValues, test_and_assign_values, sortedCheck,
      List.insertionSort]
  · norm_num [domainFromValues, test_and_assign_values, sortedCheck,
      List.insertionSort, create_values]

/-- C5 (code bug): `Domain(start=0, end=3, interval=[-1, 2])` constructs
successfully, yet its materialized values `[0, -1, 1, 3]` are not sorted —
the triple construction path never checks sortedness, contradicting the
documented invariant that every live Domain has non-decreasing values. -/
theorem claim5_unsorted_construction :
    mkDomain 0 3 (.seq [-1, 2]) = .ok ⟨0, 3, .seq [-1, 2, 2], [0, -1, 1, 3]⟩ ∧
    ¬ List.Chain' (· ≤ ·) [(0 : ℚ), -1, 1, 3] := by
  constructor
  · norm_num [mkDomain, test_and_assign_values, create_values, cumsumFrom,
      List.nodup_cons]
  · norm_num [List.chain'_cons]

/-- C1 (counterexample): with A built as `Domain(0, 10, 1)` and B as
`Domain(5, 20, 2)`, `A.equalize_domains(B)` yields start 5 and end 10 as
claimed, but its interval is 5/3 and not 2: the rebuild stores the achieved
spacing of the evenly spaced generation (B itself already stores 15/8). -/
theorem claim1_counterexample :
    mkDomain 0 10 (.scalar 1) = .ok domA ∧
    mkDomain 5 20 (.scalar 2) = .ok domB ∧
    equalize_domains domA (.dom domB) =
      .ok ⟨5, 10, .scalar (5/3), [5, 20/3, 25/3, 10]⟩ ∧
    ¬ ((5 : ℚ) / 3 = 2) := by
  refine ⟨?_, ?_, ?_, by norm_num⟩
  · norm_num [mkDomain, test_and_assign_values, create_values, arange,
      roundHalfEven, domA, Domain.mk.injEq]
    rw [show Int.toNat 10 = 10 from rfl]
    norm_num [List.range_succ]
  · norm_num [mkDomain, test_and_assign_values, create_values, arange,
      roundHalfEven, domB, Domain.mk.injEq]
    rw [show Int.toNat 8 = 8 from rfl]
    norm_num [List.range_succ]
  · norm_num [equalize_domains, mkDomain, test_and_assign_values, create_values,
      arange, roundHalfEven, domA, domB, Domain.mk.injEq]
    rw [show Int.toNat 3 = 3 from rfl]
    norm_num [List.range_succ]

/-- C1 (amended): for a uniform receiver and a uniform, distinct Domain
operand whose range overlaps in a non-degenerate intersection that the
coarser interval fits into, `equalize_domains` returns a Domain whose start
is `max(self.start, other.start)` and whose end is
`min(self.end, other.end)`; the interval requested from the rebuild is
`max(self.interval, other.interval)`, but the interval actually stored is
the achieved spacing `span / round(span / max(q1, q2))` over the clamped
span, which equals `max(q1, q2)` only when the latter evenly divides that
span. -/
theorem claim1_equalize_amended (self other : Domain) (q1 q2 : ℚ)
    (h1 : self.interval = .scalar q1) (h2 : other.interval = .scalar q2)
    (hq1 : 0 < q1) (hq2 : 0 < q2) (hne : self ≠ other)
    (hov : ¬ (other.start > self.end_ ∨ other.end_ < self.start))
    (hlt : max self.start other.start < min self.end_ other.end_)
    (hint : max q1 q2 ≤ min self.end_ other.end_ - max self.start other.start) :
    ∃ d, equalize_domains self (.dom other) = .ok d ∧
      d.start = max self.start other.start ∧
      d.end_ = min self.end_ other.end_ ∧
      d.interval = .scalar ((min self.end_ other.end_ - max self.start other.start) /
        ((roundHalfEven ((min self.end_ other.end_ - max self.start other.start) /
          max q1 q2) : ℤ) : ℚ)) := by
  have hbeq : (self == other) = false := beq_eq_false_iff_ne.mpr hne
  have hstpick : (if other.start < self.start then self.start else other.start) =
      max self.start other.start := by
    split_ifs with h
    · exact (max_eq_left h.le).symm
    · exact (max_eq_right (not_lt.mp h)).symm
  have henpick : (if other.end_ > self.end_ then self.end_ else other.end_) =
      min self.end_ other.end_ := by
    split_ifs with h
    · exact (min_eq_left h.le).symm
    · exact (min_eq_right (not_lt.mp h)).symm
  have hqmpick : (if q2 < q1 then IntervalV.scalar q1 else IntervalV.scalar q2) =
      .scalar (max q1 q2) := by
    split_ifs with h
    · rw [max_eq_left h.le]
    · rw [max_eq_right (not_lt.mp h)]
  have hqmpos : 0 < max q1 q2 := lt_of_lt_of_le hq1 (le_max_left q1 q2)
  have hratio : 1 ≤ (min self.end_ other.end_ - max self.start other.start) /
      max q1 q2 := by
    rw [one_le_div hqmpos]
    exact hint
  have hng : 1 ≤ roundHalfEven ((min self.end_ other.end_ - max self.start other.start) /
      max q1 q2) := roundHalfEven_ge_one hratio
  unfold equalize_domains
  rw [h1]
  dsimp only
  rw [hbeq]
  rw [if_neg (by simp)]
  rw [h2]
  dsimp only
  rw [if_neg hov]
  rw [hstpick, henpick, hqmpick]
  unfold mkDomain test_and_assign_values create_values
  dsimp only
  rw [if_neg (by simp only [beq_iff_eq]; exact ne_of_gt hlt)]
  rw [if_neg (not_lt.mpr hint)]
  unfold arange
  dsimp only
  rw [if_neg (by omega)]
  exact ⟨_, rfl, rfl, rfl, rfl⟩

/-- C1 witness: the amended statement instantiated at A = `Domain(0,10,1)`
and B = `Domain(5,20,2)` (whose stored interval is 15/8). -/
theorem claim1_witness :
    ∃ d, equalize_domains domA (.dom domB) = .ok d ∧
      d.start = max domA.start domB.start ∧
      d.end_ = min domA.end_ domB.end_ ∧
      d.interval = .scalar ((min domA.end_ domB.end_ - max domA.start domB.start) /
        ((roundHalfEven ((min domA.end_ domB.end_ - max domA.start domB.start) /
          max 1 (15/8)) : ℤ) : ℚ)) :=
  claim1_equalize_amended domA domB 1 (15/8) rfl rfl (by norm_num) (by norm_num)
    (by norm_num [domA, domB, Domain.mk.injEq]) (by norm_num [domA, domB])
    (by norm_num [domA, domB]) (by norm_num [domA, domB])

lemma equalize_scalar_reduction (self other : Domain) (q1 q2 : ℚ)
    (h1 : self.interval = .scalar q1) (h2 : other.interval = .scalar q2)
    (hne : self ≠ other) :
    equalize_domains self (.dom other) =
      if other.start > self.end_ ∨ other.end_ < self.start then
        .error .disjointRange
      else
        mkDomain (if other.start < self.start then self.start else other.start)
          (if other.end_ > self.end_ then self.end_ else other.end_)
          (if q2 < q1 then .scalar q1 else .scalar q2) := by
  have hbeq : (self == other) = false := beq_eq_false_iff_ne.mpr hne
  unfold equalize_domains
  rw [h1]
  dsimp only
  rw [hbeq]
  rw [if_neg (by simp)]
  rw [h2]

lemma mkDomain_point (s q : ℚ) :
    mkDomain s s (.scalar q) = .ok ⟨s, s, .scalar q, [s]⟩ := by
  unfold mkDomain test_and_assign_values create_values
  dsimp only
  rw [if_pos (by simp)]

lemma mkDomain_ne_disjoint (s e : ℚ) (iv : IntervalV) :
    mkDomain s e iv ≠ .error .disjointRange := by
  intro h
  unfold mkDomain test_and_assign_values at h
  dsimp only at h
  rcases hc : create_values s e iv with err | pair
  · rw [hc] at h
    simp only [Except.error.injEq] at h
    rcases create_values_error_cases s e iv err hc with h4 | h4 | h4 | h4 <;>
      rw [h4] at h <;> exact absurd h (by simp)
  · rw [hc] at h
    obtain ⟨v, iv2⟩ := pair
    simp at h

/-- Concrete uniform domain `[10..20]` step 2, disjoint from `domC`. -/
def domD : Domain := ⟨10, 20, .scalar 2, [10, 12, 14, 16, 18, 20]⟩

/-- C2: for uniform, distinct, well-formed domains, `equalize_domains`
raises the disjoint-range error exactly when the two ranges are strictly
disjoint (`other.start > self.end` or `other.end < self.start`); ranges that
merely touch at a boundary do not raise and yield a single-point equalized
domain. -/
theorem claim2_disjoint_iff (self other : Domain) (q1 q2 : ℚ)
    (h1 : self.interval = .scalar q1) (h2 : other.interval = .scalar q2)
    (hw1 : self.start ≤ self.end_) (hw2 : other.start ≤ other.end_)
    (hne : self ≠ other) :
    (equalize_domains self (.dom other) = .error .disjointRange ↔
      (other.start > self.end_ ∨ other.end_ < self.start)) ∧
    (other.start = self.end_ → equalize_domains self (.dom other) =
      .ok ⟨self.end_, self.end_, if q2 < q1 then .scalar q1 else .scalar q2,
        [self.end_]⟩) ∧
    (other.end_ = self.start → equalize_domains self (.dom other) =
      .ok ⟨self.start, self.start, if q2 < q1 then .scalar q1 else .scalar q2,
        [self.start]⟩) := by
  rw [equalize_scalar_reduction self other q1 q2 h1 h2 hne]
  refine ⟨?_, ?_, ?_⟩
  · by_cases hdis : other.start > self.end_ ∨ other.end_ < self.start
    · rw [if_pos hdis]
      simp [hdis]
    · rw [if_neg hdis]
      exact ⟨fun h => absurd h (mkDomain_ne_disjoint _ _ _),
        fun h => absurd h hdis⟩
  · intro htouch
    have hdis : ¬ (other.start > self.end_ ∨ other.end_ < self.start) := by
      push_neg
      constructor <;> linarith
    rw [if_neg hdis]
    have hst : (if other.start < self.start then self.start else other.start) =
        self.end_ := by
      split_ifs with h
      · linarith
      · exact htouch
    have hen : (if other.end_ > self.end_ then self.end_ else other.end_) =
        self.end_ := by
      split_ifs with h
      · rfl
      · linarith
    rw [hst, hen]
    split_ifs <;> exact mkDomain_point _ _
  · intro htouch
    have hdis : ¬ (other.start > self.end_ ∨ other.end_ < self.start) := by
      push_neg
      constructor <;> linarith
    rw [if_neg hdis]
    have hst : (if other.start < self.start then self.start else other.start) =
        self.start := by
      split_ifs with h
      · rfl
      · linarith
    have hen : (if other.end_ > self.end_ then self.end_ else other.end_) =
        self.start := by
      split_ifs with h
      · linarith
      · linarith
    rw [hst, hen]
    split_ifs <;> exact mkDomain_point _ _

/-- C2 witness: `[0..5]` and the touching `[5..8]` equalize to the single
point 5; `[0..5]` and the disjoint `[10..20]` raise the disjoint-range
error. -/
theorem claim2_witness :
    equalize_domains domC (.dom domTouch) = .ok ⟨5, 5, .scalar 1, [5]⟩ ∧
    equalize_domains domC (.dom domD) = .error .disjointRange := by
  have h := claim2_disjoint_iff domC domTouch 1 1 rfl rfl (by norm_num [domC])
    (by norm_num [domTouch]) (by norm_num [domC, domTouch, Domain.mk.injEq])
  have h2 := claim2_disjoint_iff domC domD 1 2 rfl rfl (by norm_num [domC])
    (by norm_num [domD]) (by norm_num [domC, domD, Domain.mk.injEq])
  constructor
  · have h3 := h.2.1 (by norm_num [domC, domTouch])
    rw [h3]
    norm_num [domC, Domain.mk.injEq]
  · exact h2.1.mpr (by norm_num [domC, domD])

/-- C3 (counterexample): `[0,1,3]` builds a genuinely non-uniform Domain;
equalizing the uniform `[0..5]` with it, despite overlapping ranges, raises
the ambiguous-array-truth-value error at the coarsest-interval comparison
instead of returning an equalized Domain. -/
theorem claim3_counterexample :
    domainFromValues [0, 1, 3] none = .ok domNU ∧
    domNU.is_uniform = false ∧
    ¬ (domNU.start > domC.end_ ∨ domNU.end_ < domC.start) ∧
    equalize_domains domC (.dom domNU) = .error .ambiguousTruthValue := by
  refine ⟨?_, rfl, by norm_num [domC, domNU], ?_⟩
  · norm_num [domainFromValues, test_and_assign_values, sortedCheck,
      List.insertionSort, List.orderedInsert, isUniformArr, consecDiffs,
      array_domain, create_values, cumsumFrom, List.nodup_cons, domNU,
      Domain.mk.injEq]
  · norm_num [equalize_domains, domC, domNU, Domain.mk.injEq]

/-- C3 (amended): a Domain operand is coerced without any uniformity check
(unlike the array path), and the disjointness check and range clamping run;
but for a genuinely non-uniform operand (interval sequence of length at
least 2) the coarsest-interval comparison `interval < self.interval` is an
element-wise array comparison whose truth value is ambiguous, so
`equalize_domains` raises instead of returning an equalized Domain. -/
theorem claim3_amended (self other : Domain) (q1 g1 g2 : ℚ) (rest : List ℚ)
    (h1 : self.interval = .scalar q1)
    (h2 : other.interval = .seq (g1 :: g2 :: rest))
    (hov : ¬ (other.start > self.end_ ∨ other.end_ < self.start)) :
    equalize_domains self (.dom other) = .error .ambiguousTruthValue := by
  have hne : (self == other) = false := by
    rw [beq_eq_false_iff_ne]
    intro h
    rw [h, h2] at h1
    exact absurd h1 (by simp)
  unfold equalize_domains
  rw [h1]
  dsimp only
  rw [hne]
  rw [if_neg (by simp)]
  rw [h2]
  dsimp only
  rw [if_neg hov]

/-- C3 witness: the amended statement instantiated at the uniform `[0..5]`
receiver and the non-uniform `[0,1,3]` operand. -/
theorem claim3_witness :
    equalize_domains domC (.dom domNU) = .error .ambiguousTruthValue :=
  claim3_amended domC domNU 1 1 2 [] rfl rfl (by norm_num [domC, domNU])

/-- C4 (counterexample): the gaps `[0, 1]` sum to less than the span of
`Domain(start=0, end=3, ...)`, yet construction does not succeed: the
appended-shortfall values `[0, 0, 1, 3]` contain a duplicate and the
non-unique-values check rejects them. -/
theorem claim4_counterexample :
    ([(0 : ℚ), 1].sum < 3 - 0) ∧
    mkDomain 0 3 (.seq [0, 1]) = .error .nonUniqueValues := by
  constructor
  · norm_num
  · norm_num [mkDomain, test_and_assign_values, create_values, cumsumFrom,
      List.nodup_cons]

/-- C4 (amended): constructing from an explicit per-gap sequence is
asymmetric: if the gaps sum to more than `end - start`, construction fails
with the overspecified-gaps error; if they sum to less, one final gap equal
to the shortfall is appended (adding one extra point), and construction
succeeds provided the resulting cumulative points are distinct — in
particular whenever every supplied gap is strictly positive. -/
theorem claim4_gap_asymmetry (s e : ℚ) (l : List ℚ) :
    (l.sum > e - s → mkDomain s e (.seq l) = .error .overspecifiedGaps) ∧
    ((∀ g ∈ l, 0 < g) → l.sum < e - s →
      ∃ d, mkDomain s e (.seq l) = .ok d ∧
        d.interval = .seq (l ++ [(e - s) - l.sum]) ∧
        d.values.length = l.length + 2 ∧ d.start = s ∧ d.end_ = e) := by
  constructor
  · intro hsum
    unfold mkDomain test_and_assign_values create_values
    dsimp only
    rw [if_neg (by simp only [not_lt]; linarith)]
    rw [if_pos (by linarith)]
  · intro hpos hlt
    have hdpos : 0 < (e - s) - l.sum := by linarith
    have hposall : ∀ g ∈ l ++ [(e - s) - l.sum], 0 < g := by
      intro g hg
      rcases List.mem_append.mp hg with hgl | hgr
      · exact hpos g hgl
      · rw [List.mem_singleton.mp hgr]
        exact hdpos
    have hchain : List.Chain' (· < ·)
        (s :: cumsumFrom s (l ++ [(e - s) - l.sum])) :=
      cumsumFrom_chain_lt _ s hposall
    have hnodup : (s :: cumsumFrom s (l ++ [(e - s) - l.sum])).Nodup :=
      (List.chain'_iff_pairwise.mp hchain).imp ne_of_lt
    unfold mkDomain test_and_assign_values create_values
    dsimp only
    rw [if_pos hdpos]
    rw [if_pos hnodup]
    refine ⟨_, rfl, rfl, ?_, rfl, rfl⟩
    simp only [List.length_cons, cumsumFrom_length, List.length_append,
      List.length_nil]

/-- C4 witness: `Domain(0, 3, [1,1])` succeeds appending a final gap of 1
(4 points `[0,1,2,3]`); `Domain(0, 2, [1,1,1])` fails with the
overspecified-gaps error. -/
theorem claim4_witness :
    mkDomain 0 3 (.seq [1, 1]) = .ok ⟨0, 3, .seq [1, 1, 1], [0, 1, 2, 3]⟩ ∧
    mkDomain 0 2 (.seq [1, 1, 1]) = .error .overspecifiedGaps ∧
    (∃ d, mkDomain 0 3 (.seq [1, 1]) = .ok d ∧
      d.interval = .seq ([1, 1] ++ [(3 - 0) - [(1 : ℚ), 1].sum]) ∧
      d.values.length = [(1 : ℚ), 1].length + 2 ∧ d.start = 0 ∧ d.end_ = 3) := by
  refine ⟨?_, ?_, ?_⟩
  · norm_num [mkDomain, test_and_assign_values, create_values, cumsumFrom,
      List.nodup_cons]
  · exact (claim4_gap_asymmetry 0 2 [1, 1, 1]).1 (by norm_num)
  · exact (claim4_gap_asymmetry 0 3 [1, 1]).2 (by norm_num) (by norm_num)

lemma not_chain'_iff_descent (v : List ℚ) :
    ¬ List.Chain' (· ≤ ·) v ↔
      ∃ i, ∃ h : i + 1 < v.length,
        v.get ⟨i + 1, h⟩ < v.get ⟨i, Nat.lt_of_succ_lt h⟩ := by
  rw [List.chain'_iff_get]
  push_neg
  constructor
  · rintro ⟨i, h, hlt⟩
    exact ⟨i, by omega, hlt⟩
  · rintro ⟨i, h, hlt⟩
    exact ⟨i, by omega, hlt⟩

lemma fromValues_notSorted_iff (v : List ℚ) (iv : Option IntervalV) :
    domainFromValues v iv = .error .notSorted ↔ sortedCheck v = false := by
  unfold domainFromValues test_and_assign_values
  dsimp only
  rcases hs : sortedCheck v with _ | _
  · simp
  · rw [if_neg (by simp)]
    constructor
    · intro h
      exfalso
      by_cases h1 : (v.length == 1) = true
      · rw [if_pos h1] at h
        rcases iv with _ | iv2
        · simp at h
        · dsimp only at h
          rcases hc : create_values (v.headD 0) (v.headD 0) iv2 with err | ⟨v2, iv3⟩
          · rw [hc] at h
            simp only [Except.error.injEq] at h
            rcases create_values_error_cases _ _ _ _ hc with h4 | h4 | h4 | h4 <;>
              simp_all
          · rw [hc] at h
            simp at h
      · rw [if_neg h1] at h
        by_cases h0 : (v.length == 0) = true
        · rw [if_pos h0] at h
          simp at h
        · rw [if_neg h0] at h
          rcases ht : array_domain v (isUniformArr v) with ⟨s2, e2, iv3⟩
          rw [ht] at h
          dsimp only at h
          rcases hc : create_values s2 e2 iv3 with err | ⟨v2, iv4⟩
          · rw [hc] at h
            simp only [Except.error.injEq] at h
            rcases create_values_error_cases _ _ _ _ hc with h4 | h4 | h4 | h4 <;>
              simp_all
          · rw [hc] at h
            simp at h
    · intro h
      simp at h

/-- C10: the not-sorted error is raised exactly when the values array has a
strict descent somewhere; a non-decreasing array containing duplicates
passes the sortedness check, and is rejected, if at all, only by the later
non-unique-values check during value materialization. -/
theorem claim10_sortedness_vs_duplicates (v : List ℚ) (iv : Option IntervalV) :
    (domainFromValues v iv = .error .notSorted ↔
      ∃ i, ∃ h : i + 1 < v.length,
        v.get ⟨i + 1, h⟩ < v.get ⟨i, Nat.lt_of_succ_lt h⟩) ∧
    (List.Chain' (· ≤ ·) v → ¬ v.Nodup →
      sortedCheck v = true ∧
      ∀ e, domainFromValues v iv = .error e → e = .nonUniqueValues) := by
  constructor
  · rw [fromValues_notSorted_iff, Bool.eq_false_iff, ne_eq,
      sortedCheck_iff_chain', not_chain'_iff_descent]
  · intro hch hnd
    have hsort : sortedCheck v = true := (sortedCheck_iff_chain' v).mpr hch
    refine ⟨hsort, ?_⟩
    intro e he
    have hlen2 : 2 ≤ v.length := by
      by_contra hlen
      push_neg at hlen
      rcases v with _ | ⟨a, _ | ⟨b, t⟩⟩
      · exact hnd List.nodup_nil
      · exact hnd (List.nodup_singleton a)
      · simp at hlen
        omega
    obtain ⟨a, t, rfl⟩ : ∃ a t, v = a :: t := by
      rcases v with _ | ⟨a, t⟩
      · simp at hlen2
      · exact ⟨a, t, rfl⟩
    unfold domainFromValues test_and_assign_values at he
    dsimp only at he
    rw [if_neg (by simp [hsort])] at he
    rw [if_neg (by simp only [beq_iff_eq]; omega)] at he
    rw [if_neg (by simp only [beq_iff_eq]; omega)] at he
    by_cases huni : isUniformArr (a :: t) = true
    · exfalso
      have hmem0 : (0 : ℚ) ∈ consecDiffs (a :: t) :=
        zero_mem_consecDiffs_of_dup _ hch hnd
      rcases hd : consecDiffs (a :: t) with _ | ⟨d0, ds⟩
      · rw [hd] at hmem0
        simp at hmem0
      · have hall : ∀ x ∈ ds, x = d0 := by
          have h2 := huni
          unfold isUniformArr at h2
          rw [hd] at h2
          simpa [List.all_eq_true] using h2
        have hd0 : d0 = 0 := by
          rw [hd] at hmem0
          rcases List.mem_cons.mp hmem0 with h | h
          · exact h.symm
          · exact (hall 0 h).symm
        have hzero : ∀ x ∈ consecDiffs (a :: t), x = 0 := by
          rw [hd]
          intro x hx
          rcases List.mem_cons.mp hx with h | h
          · rw [h, hd0]
          · rw [hall x h, hd0]
        have hsum0 : (consecDiffs (a :: t)).sum = 0 := List.sum_eq_zero hzero
        have hlast : (a :: t).getLastD 0 = a := by
          have h3 := consecDiffs_sum t a
          rw [hsum0] at h3
          linarith
        rw [huni] at he
        unfold array_domain at he
        rw [if_pos rfl] at he
        dsimp only at he
        rw [hlast] at he
        unfold create_values at he
        dsimp only at he
        rw [if_pos (by simp)] at he
        simp at he
    · have hfalse : isUniformArr (a :: t) = false := by simpa using huni
      rw [hfalse] at he
      unfold array_domain at he
      rw [if_neg (by simp)] at he
      dsimp only at he
      unfold create_values at he
      dsimp only at he
      have heq : ((a :: t).getLastD 0 - (a :: t).headD 0) -
          (consecDiffs (a :: t)).sum = 0 := by
        have h3 := consecDiffs_sum t a
        simp only [List.headD_cons]
        linarith
      rw [if_neg (by rw [heq]; norm_num)] at he
      rw [if_neg (by rw [heq]; norm_num)] at he
      have hre : (a :: t).headD 0 :: cumsumFrom ((a :: t).headD 0)
          (consecDiffs (a :: t)) = a :: t := by
        simp only [List.headD_cons]
        rw [cumsumFrom_consecDiffs]
      rw [hre] at he
      rw [if_neg hnd] at he
      dsimp only at he
      simp only [Except.error.injEq] at he
      exact he.symm

/-- C10 witness: the non-decreasing duplicate array `[1,1,2]` passes the
sortedness check and is rejected by the non-unique-values check. -/
theorem claim10_witness :
    List.Chain' (· ≤ ·) [(1 : ℚ), 1, 2] ∧ ¬ [(1 : ℚ), 1, 2].Nodup ∧
    sortedCheck [(1 : ℚ), 1, 2] = true ∧
    domainFromValues [1, 1, 2] none = .error .nonUniqueValues := by
  have hch : List.Chain' (· ≤ ·) [(1 : ℚ), 1, 2] := by
    norm_num [List.chain'_cons]
  have hnd : ¬ [(1 : ℚ), 1, 2].Nodup := by
    norm_num [List.nodup_cons]
  have h := (claim10_sortedness_vs_duplicates [1, 1, 2] none).2 hch hnd
  refine ⟨hch, hnd, h.1, ?_⟩
  norm_num [domainFromValues, test_and_assign_values, sortedCheck,
    List.insertionSort, List.orderedInsert, isUniformArr, consecDiffs,
    array_domain, create_values, cumsumFrom, List.nodup_cons]
